import Mathlib

/-!
A verification development for the TXT-Parser repository, covering
`txt_parser/parser.py` and `txt_parser/models.py`.

Strings are modelled as lists of characters (`Str`).  The Python string
primitives the parser uses (`split`, `lstrip`, `strip`, `rstrip("\r")`,
`startswith`, the substring test `in`, `join`) are given executable
definitions below.  Whitespace is modelled as the ASCII whitespace
characters and the character class `\d` as the ASCII digits (the exported
PLC text the parser consumes is ASCII).
-/

abbrev Str := List Char

/-- ASCII whitespace: the model of the character class Python's strip
family removes. -/
def pyIsSpace (c : Char) : Bool :=
  c == ' ' || c == '\t' || c == '\n' || c == '\r' || c == '\x0b' || c == '\x0c'

/-- Python str.lstrip(). -/
def pyLstrip (s : Str) : Str := s.dropWhile pyIsSpace

/-- Python str.strip(). -/
def pyStrip (s : Str) : Str :=
  ((s.dropWhile pyIsSpace).reverse.dropWhile pyIsSpace).reverse

/-- Python line.rstrip("\r"): remove every trailing carriage return. -/
def pyRstripCR (s : Str) : Str :=
  (s.reverse.dropWhile (fun c => c == '\r')).reverse

/-- One fuel-indexed step stack of Python's str.split(sep) for a non-empty
separator; `pySplit` supplies enough fuel for the scan to finish. -/
def pySplitF (sep : Str) : Nat → Str → List Str
  | 0, _ => [[]]
  | _ + 1, [] => [[]]
  | fuel + 1, x :: xs =>
    if sep ≠ [] ∧ sep.isPrefixOf (x :: xs) then
      [] :: pySplitF sep fuel (xs.drop (sep.length - 1))
    else
      (x :: (pySplitF sep fuel xs).headI) :: (pySplitF sep fuel xs).tail

/-- Python str.split(sep) for a non-empty separator. -/
def pySplit (sep s : Str) : List Str := pySplitF sep (s.length + 1) s

/-- The number of non-overlapping occurrences of `sep`, counted by the same
left-to-right scan str.split performs (fuel-indexed). -/
def countOccF (sep : Str) : Nat → Str → Nat
  | 0, _ => 0
  | _ + 1, [] => 0
  | fuel + 1, x :: xs =>
    if sep ≠ [] ∧ sep.isPrefixOf (x :: xs) then
      countOccF sep fuel (xs.drop (sep.length - 1)) + 1
    else
      countOccF sep fuel xs

/-- The number of non-overlapping occurrences of `sep` in `s`. -/
def countOcc (sep s : Str) : Nat := countOccF sep (s.length + 1) s

/-- Python's substring test, needle in hay. -/
def strIn (needle : Str) : Str → Bool
  | [] => needle.isEmpty
  | c :: t => needle.isPrefixOf (c :: t) || strIn needle t

/-- Python sep.join(chunks). -/
def joinSep (sep : Str) : List Str → Str
  | [] => []
  | [c] => c
  | c :: cs => c ++ sep ++ joinSep sep cs

theorem isPrefixOf_iff_append {l₁ l₂ : Str} :
    l₁.isPrefixOf l₂ = true ↔ ∃ t, l₁ ++ t = l₂ := by
  induction l₁ generalizing l₂ with
  | nil => simp [List.isPrefixOf]
  | cons a as ih =>
    cases l₂ with
    | nil => simp [List.isPrefixOf]
    | cons b bs =>
      simp only [List.isPrefixOf, Bool.and_eq_true, beq_iff_eq, ih]
      constructor
      · rintro ⟨rfl, t, rfl⟩
        exact ⟨t, rfl⟩
      · rintro ⟨t, h⟩
        simp only [List.cons_append, List.cons.injEq] at h
        exact ⟨h.1, t, h.2⟩

theorem pySplitF_fuel (sep : Str) :
    ∀ fuel₁ fuel₂ s, s.length < fuel₁ → s.length < fuel₂ →
      pySplitF sep fuel₁ s = pySplitF sep fuel₂ s := by
  intro fuel₁
  induction fuel₁ with
  | zero => intro fuel₂ s h₁ _; omega
  | succ f ih =>
    intro fuel₂ s h₁ h₂
    match fuel₂, s with
    | 0, s => omega
    | g + 1, [] => rfl
    | g + 1, x :: xs =>
      simp only [List.length_cons] at h₁ h₂
      simp only [pySplitF]
      by_cases hp : sep ≠ [] ∧ sep.isPrefixOf (x :: xs) = true
      · rw [if_pos hp, if_pos hp,
          ih g (xs.drop (sep.length - 1))
            (by have := List.length_drop (sep.length - 1) xs; omega)
            (by have := List.length_drop (sep.length - 1) xs; omega)]
      · rw [if_neg hp, if_neg hp, ih g xs (by omega) (by omega)]

theorem pySplit_nil (sep : Str) : pySplit sep [] = [[]] := rfl

theorem pySplit_cons (sep : Str) (x : Char) (xs : Str) :
    pySplit sep (x :: xs) =
      if sep ≠ [] ∧ sep.isPrefixOf (x :: xs) = true then
        [] :: pySplit sep (xs.drop (sep.length - 1))
      else
        (x :: (pySplit sep xs).headI) :: (pySplit sep xs).tail := by
  show pySplitF sep (xs.length + 1 + 1) (x :: xs) = _
  simp only [pySplitF]
  by_cases hp : sep ≠ [] ∧ sep.isPrefixOf (x :: xs) = true
  · rw [if_pos hp, if_pos hp,
      pySplitF_fuel sep (xs.length + 1) ((xs.drop (sep.length - 1)).length + 1)
        (xs.drop (sep.length - 1))
        (by have := List.length_drop (sep.length - 1) xs; omega) (by omega)]
    rfl
  · rw [if_neg hp, if_neg hp]
    rfl

theorem countOcc_nil (sep : Str) : countOcc sep [] = 0 := rfl

theorem pySplitF_ne_nil (sep : Str) (fuel : Nat) (s : Str) :
    pySplitF sep fuel s ≠ [] := by
  match fuel, s with
  | 0, s => simp [pySplitF]
  | f + 1, [] => simp [pySplitF]
  | f + 1, x :: xs =>
    simp only [pySplitF]
    split <;> simp

theorem pySplit_ne_nil (sep s : Str) : pySplit sep s ≠ [] :=
  pySplitF_ne_nil sep (s.length + 1) s

theorem pySplitF_headI_prefix (sep : Str) :
    ∀ fuel s, s.length < fuel → ∃ t, (pySplitF sep fuel s).headI ++ t = s := by
  intro fuel
  induction fuel with
  | zero => intro s h; omega
  | succ f ih =>
    intro s h
    match s with
    | [] => exact ⟨[], rfl⟩
    | x :: xs =>
      simp only [List.length_cons] at h
      simp only [pySplitF]
      by_cases hp : sep ≠ [] ∧ sep.isPrefixOf (x :: xs) = true
      · rw [if_pos hp]
        exact ⟨x :: xs, rfl⟩
      · rw [if_neg hp]
        obtain ⟨t, ht⟩ := ih xs (by omega)
        refine ⟨t, ?_⟩
        show (x :: (pySplitF sep f xs).headI) ++ t = x :: xs
        rw [List.cons_append, ht]

theorem strIn_nil_iff (needle : Str) : strIn needle [] = true ↔ needle = [] := by
  simp [strIn, List.isEmpty_iff]

theorem strIn_cons (needle : Str) (c : Char) (t : Str) :
    strIn needle (c :: t) = (needle.isPrefixOf (c :: t) || strIn needle t) := rfl

theorem strIn_of_prefixOf {needle s : Str} (h : needle.isPrefixOf s = true) :
    strIn needle s = true := by
  cases s with
  | nil =>
    cases needle with
    | nil => rfl
    | cons a as => simp [List.isPrefixOf] at h
  | cons c t => simp [strIn_cons, h]

theorem pySplitF_chunk_no_occurrence (sep : Str) (hsep : sep ≠ []) :
    ∀ fuel s, s.length < fuel →
      ∀ c ∈ pySplitF sep fuel s, strIn sep c = false := by
  intro fuel
  induction fuel with
  | zero => intro s h; omega
  | succ f ih =>
    intro s h c hc
    match s with
    | [] =>
      simp only [pySplitF, List.mem_singleton] at hc
      subst hc
      simp [strIn, List.isEmpty_iff, hsep]
    | x :: xs =>
      simp only [List.length_cons] at h
      simp only [pySplitF] at hc
      by_cases hp : sep ≠ [] ∧ sep.isPrefixOf (x :: xs) = true
      · rw [if_pos hp] at hc
        rcases List.mem_cons.mp hc with hc | hc
        · subst hc
          simp [strIn, List.isEmpty_iff, hsep]
        · exact ih (xs.drop (sep.length - 1))
            (by have := List.length_drop (sep.length - 1) xs; omega) c hc
      · rw [if_neg hp] at hc
        have hxs : xs.length < f := by omega
        rcases List.mem_cons.mp hc with hc | hc
        · subst hc
          rw [strIn_cons]
          have hnp : sep.isPrefixOf (x :: (pySplitF sep f xs).headI) = false := by
            by_contra hb
            rw [Bool.not_eq_false] at hb
            obtain ⟨u, hu⟩ := isPrefixOf_iff_append.mp hb
            obtain ⟨t, ht⟩ := pySplitF_headI_prefix sep f xs hxs
            have : sep.isPrefixOf (x :: xs) = true := by
              refine isPrefixOf_iff_append.mpr ⟨u ++ t, ?_⟩
              rw [← List.append_assoc, hu, List.cons_append, ht]
            exact hp ⟨hsep, this⟩
          rw [hnp, Bool.false_or]
          have hhead : strIn sep (pySplitF sep f xs).headI = false := by
            obtain ⟨r₀, rs, hr⟩ :=
              List.exists_cons_of_ne_nil (pySplitF_ne_nil sep f xs)
            rw [hr]
            exact ih xs hxs r₀ (by rw [hr]; exact List.mem_cons_self r₀ rs)
          -- the head chunk of the tail scan stays occurrence-free, and
          -- prepending x cannot create an occurrence (shown above)
          exact hhead
        · -- c is in the tail of the recursive result
          obtain ⟨r₀, rs, hr⟩ :=
            List.exists_cons_of_ne_nil (pySplitF_ne_nil sep f xs)
          have : c ∈ pySplitF sep f xs := by
            rw [hr] at hc ⊢
            exact List.mem_cons_of_mem r₀ (by simpa using hc)
          exact ih xs hxs c this

theorem pySplit_chunk_no_occurrence (sep : Str) (hsep : sep ≠ []) (s : Str) :
    ∀ c ∈ pySplit sep s, strIn sep c = false :=
  pySplitF_chunk_no_occurrence sep hsep (s.length + 1) s (by omega)

theorem joinSep_cons_cons (sep c₁ c₂ : Str) (cs : List Str) :
    joinSep sep (c₁ :: c₂ :: cs) = c₁ ++ sep ++ joinSep sep (c₂ :: cs) := rfl

theorem joinSep_pySplitF (sep : Str) :
    ∀ fuel s, s.length < fuel → joinSep sep (pySplitF sep fuel s) = s := by
  intro fuel
  induction fuel with
  | zero => intro s h; omega
  | succ f ih =>
    intro s h
    match s with
    | [] => rfl
    | x :: xs =>
      simp only [List.length_cons] at h
      simp only [pySplitF]
      by_cases hp : sep ≠ [] ∧ sep.isPrefixOf (x :: xs) = true
      · rw [if_pos hp]
        obtain ⟨hsep, hpre⟩ := hp
        obtain ⟨t, ht⟩ := isPrefixOf_iff_append.mp hpre
        have hdrop : xs.drop (sep.length - 1) = t := by
          match sep, hsep with
          | s₀ :: srest, _ =>
            simp only [List.cons_append, List.cons.injEq] at ht
            rw [← ht.2, List.length_cons, Nat.add_sub_cancel, List.drop_left]
        have hlt : (xs.drop (sep.length - 1)).length < f := by
          have := List.length_drop (sep.length - 1) xs; omega
        obtain ⟨r₀, rs, hr⟩ :=
          List.exists_cons_of_ne_nil (pySplitF_ne_nil sep f (xs.drop (sep.length - 1)))
        rw [hr, joinSep_cons_cons, List.nil_append]
        have := ih (xs.drop (sep.length - 1)) hlt
        rw [hr] at this
        rw [this, hdrop, ← ht]
      · rw [if_neg hp]
        have hxs : xs.length < f := by omega
        have hih := ih xs hxs
        obtain ⟨r₀, rs, hr⟩ :=
          List.exists_cons_of_ne_nil (pySplitF_ne_nil sep f xs)
        rw [hr] at hih
        rw [hr]
        match rs with
        | [] =>
          simp only [joinSep] at hih ⊢
          simp [List.headI, hih]
        | r₁ :: rs' =>
          rw [joinSep_cons_cons] at hih
          simp only [List.headI, List.tail_cons]
          rw [joinSep_cons_cons, ← hih]
          simp

theorem joinSep_pySplit (sep s : Str) : joinSep sep (pySplit sep s) = s :=
  joinSep_pySplitF sep (s.length + 1) s (by omega)

theorem pySplitF_length (sep : Str) :
    ∀ fuel s, s.length < fuel →
      (pySplitF sep fuel s).length = countOccF sep fuel s + 1 := by
  intro fuel
  induction fuel with
  | zero => intro s h; omega
  | succ f ih =>
    intro s h
    match s with
    | [] => rfl
    | x :: xs =>
      simp only [List.length_cons] at h
      simp only [pySplitF, countOccF]
      by_cases hp : sep ≠ [] ∧ sep.isPrefixOf (x :: xs) = true
      · rw [if_pos hp, if_pos hp]
        have hlt : (xs.drop (sep.length - 1)).length < f := by
          have := List.length_drop (sep.length - 1) xs; omega
        simp [ih (xs.drop (sep.length - 1)) hlt]
      · rw [if_neg hp, if_neg hp]
        have hxs : xs.length < f := by omega
        have hih := ih xs hxs
        obtain ⟨r₀, rs, hr⟩ :=
          List.exists_cons_of_ne_nil (pySplitF_ne_nil sep f xs)
        rw [hr] at hih
        rw [hr]
        simp only [List.length_cons] at hih
        simp only [List.length_cons, List.tail_cons]
        omega

theorem pySplit_length (sep s : Str) :
    (pySplit sep s).length = countOcc sep s + 1 :=
  pySplitF_length sep (s.length + 1) s (by omega)

/-- Sentinel from models.py: NOT_FOUND_IN_BLOCK. -/
def NOT_FOUND_IN_BLOCK : Str := "not found in block".data

/-- Sentinel from models.py: NOT_FOUND_IN_FILE. -/
def NOT_FOUND_IN_FILE : Str := "niet gevonden in bestand".data

/-- Sentinel from models.py: FOUND_OUTSIDE_NUM_BLOCK. -/
def FOUND_OUTSIDE_NUM_BLOCK : Str := "gevonden buiten NUM-blok".data

/-- The NumBlock dataclass of models.py. -/
structure NumBlock where
  object_number : Str
  raw_block_text : Str
  address_line : Str
  unitscale_line : Str
  storage_type_line : Str
  min_input_limit_line : Str
  max_input_limit_line : Str
  timing_range_check_line : Str
deriving DecidableEq, Inhabited

/-- The LookupRow dataclass of models.py. -/
structure LookupRow where
  requested_address : Str
  object_number : Str
  address_in_file : Str
  unitscale : Str
  storage_type : Str
  min_input_limit : Str
  max_input_limit : Str
  timing_range_check : Str
deriving DecidableEq, Inhabited

/-- The ParseDiagnostics dataclass of parser.py; the Python dict (which
iterates in insertion order) is modelled as an association list. -/
structure ParseDiagnostics where
  num_block_count : Nat
  sorted_object_numbers : List Str
  missing_numbers : List Str
  duplicate_addresses : List (Str × List Str)
deriving DecidableEq

/-- The DELIMITER constant of parser.py. -/
def DELIMITER : Str := "Numeral Display & Input[NUM".data

/-- The six fields of FIELD_LABELS, keyed by their NumBlock attribute name. -/
inductive FieldId
  | address_line
  | unitscale_line
  | storage_type_line
  | min_input_limit_line
  | max_input_limit_line
  | timing_range_check_line
deriving DecidableEq

/-- FIELD_LABELS: each field's tuple of accepted label spellings. -/
def acceptedLabels : FieldId → List Str
  | .address_line => ["Address".data]
  | .unitscale_line => ["UnitScale".data, "Set UnitScale".data]
  | .storage_type_line => ["Storage Type".data]
  | .min_input_limit_line => ["Minimum Input Limit".data]
  | .max_input_limit_line => ["Maximum Input Limit".data]
  | .timing_range_check_line => ["Timing of max/min range check".data]

/-- The helper line_matches_label of parser.py: the left-trimmed line equals
the label, or starts with the label followed by a space or a colon. -/
def line_matches_label (line label : Str) : Bool :=
  pyLstrip line == label
    || (label ++ [' ']).isPrefixOf (pyLstrip line)
    || (label ++ [':']).isPrefixOf (pyLstrip line)

/-- The value extract_fields assigns at a matched line: the full
left-trimmed line, or label + " " + next_line.strip() when the matched line
is exactly the label and the next line exists and is non-blank. -/
def lineValue (matched_label line : Str) (next_line : Option Str) : Str :=
  match next_line with
  | some nxt =>
    if pyLstrip line = matched_label ∧ pyStrip nxt ≠ [] then
      matched_label ++ ' ' :: pyStrip nxt
    else pyLstrip line
  | none => pyLstrip line

/-- The matched_label expression of extract_fields: the first accepted
label (in tuple order) the line matches, if any. -/
def matchLabel (fid : FieldId) (line : Str) : Option Str :=
  (acceptedLabels fid).find? (fun label => line_matches_label line label)

/-- One line of the extract_fields scan, for one field slot. -/
def stepField (line : Str) (next_line : Option Str) (fid : FieldId) (cur : Str) : Str :=
  if cur ≠ NOT_FOUND_IN_BLOCK then cur
  else
    match matchLabel fid line with
    | none => cur
    | some matched_label => lineValue matched_label line next_line

/-- The loop of extract_fields over the block's lines; each field slot is
read and written independently, so the per-line update is simultaneous over
the six slots. -/
def extractLoop : List Str → (FieldId → Str) → (FieldId → Str)
  | [], values => values
  | line :: rest, values =>
    extractLoop rest (fun fid => stepField line rest.head? fid (values fid))

/-- The physical lines extract_fields scans: split on newline, each with
trailing carriage returns removed. -/
def linesOf (block_text : Str) : List Str :=
  (pySplit ['\n'] block_text).map pyRstripCR

/-- The helper extract_fields of parser.py. -/
def extract_fields (block_text : Str) : FieldId → Str :=
  extractLoop (linesOf block_text) (fun _ => NOT_FOUND_IN_BLOCK)

/-- OBJECT_NUMBER_RE.match(part): the regular expression (backslash-d four
times, anchored at the start), with ASCII digits modelling backslash-d;
yields the matched group. -/
def objectNumberMatch (part : Str) : Option Str :=
  if 4 ≤ part.length ∧ (part.take 4).all Char.isDigit then some (part.take 4)
  else none

/-- The body of the parse_num_blocks loop: the block built for one
post-delimiter segment. -/
def numBlockOfPart (part : Str) : NumBlock :=
  let object_number :=
    match objectNumberMatch part with
    | some digits => "NUM".data ++ digits
    | none => NOT_FOUND_IN_BLOCK
  let reconstructed_block := DELIMITER ++ part
  let values := extract_fields reconstructed_block
  { object_number := object_number
    raw_block_text := reconstructed_block
    address_line := values FieldId.address_line
    unitscale_line := values FieldId.unitscale_line
    storage_type_line := values FieldId.storage_type_line
    min_input_limit_line := values FieldId.min_input_limit_line
    max_input_limit_line := values FieldId.max_input_limit_line
    timing_range_check_line := values FieldId.timing_range_check_line }

/-- parse_num_blocks of parser.py. -/
def parse_num_blocks (text : Str) : List NumBlock :=
  (pySplit DELIMITER text).tail.map numBlockOfPart

/-- re.fullmatch of the canonical pattern NUM followed by exactly four
digits. -/
def isCanonical (s : Str) : Bool :=
  s.length == 7 && s.take 3 == "NUM".data && (s.drop 3).all Char.isDigit

/-- object_int of parser.py: int(s[3:]), evaluated on canonical identifiers
(whose tail is exactly four ASCII digits). -/
def object_int (s : Str) : Nat :=
  (s.drop 3).foldl (fun a c => 10 * a + (c.toNat - '0'.toNat)) 0

/-- Python min over a non-empty list of ints. -/
def pyMinL : List Nat → Nat
  | [] => 0
  | x :: xs => xs.foldl Nat.min x

/-- Python max over a non-empty list of ints. -/
def pyMaxL : List Nat → Nat
  | [] => 0
  | x :: xs => xs.foldl Nat.max x

/-- The format expression NUM followed by the value zero-padded to four
digits. -/
def fmtNUM (value : Nat) : Str :=
  "NUM".data ++ List.replicate (4 - (Nat.toDigits 10 value).length) '0'
    ++ Nat.toDigits 10 value

/-- The defaultdict accumulation duplicates[address].append(object_number),
with the insertion-ordered dict as an association list. -/
def addDup (acc : List (Str × List Str)) (key value : Str) : List (Str × List Str) :=
  if acc.any (fun p => p.1 == key) then
    acc.map (fun p => if p.1 == key then (p.1, p.2 ++ [value]) else p)
  else acc ++ [(key, [value])]

/-- build_diagnostics of parser.py.  Python's sorted with key object_int is
a stable ascending sort; it is modelled by insertion sort, which is stable,
so the two agree on every input. -/
def build_diagnostics (num_blocks : List NumBlock) : ParseDiagnostics :=
  let valid_numbers :=
    List.insertionSort (fun a b => object_int a ≤ object_int b)
      ((num_blocks.filter (fun b => isCanonical b.object_number)).map
        (fun b => b.object_number))
  let missing :=
    if valid_numbers = [] then []
    else
      let number_values := valid_numbers.map object_int
      ((List.range' (pyMinL number_values)
            (pyMaxL number_values + 1 - pyMinL number_values)).filter
          (fun value => !number_values.contains value)).map fmtNUM
  let duplicates :=
    num_blocks.foldl
      (fun acc block =>
        if block.address_line ≠ NOT_FOUND_IN_BLOCK then
          addDup acc block.address_line block.object_number
        else acc) []
  { num_block_count := num_blocks.length
    sorted_object_numbers := valid_numbers
    missing_numbers := missing
    duplicate_addresses := duplicates.filter (fun p => 1 < p.2.length) }

/-- The two candidate forms search_variants built for a requested address. -/
def searchVariants (requested : Str) : List Str :=
  ["Address ETHERNET:".data ++ requested, "Address ".data ++ requested]

/-- The row lookup_addresses appends when a block's address field matches. -/
def blockRow (requested : Str) (block : NumBlock) : LookupRow :=
  { requested_address := requested
    object_number := block.object_number
    address_in_file := block.address_line
    unitscale := block.unitscale_line
    storage_type := block.storage_type_line
    min_input_limit := block.min_input_limit_line
    max_input_limit := block.max_input_limit_line
    timing_range_check := block.timing_range_check_line }

/-- The body of the lookup_addresses loop: the row for one requested
address. -/
def lookup_row (num_blocks : List NumBlock) (full_text requested : Str) : LookupRow :=
  match num_blocks.find?
      (fun block => (searchVariants requested).contains block.address_line) with
  | some block => blockRow requested block
  | none =>
    match (searchVariants requested).find? (fun variant => strIn variant full_text) with
    | some variant =>
      { requested_address := requested
        object_number := FOUND_OUTSIDE_NUM_BLOCK
        address_in_file := variant
        unitscale := NOT_FOUND_IN_BLOCK
        storage_type := NOT_FOUND_IN_BLOCK
        min_input_limit := NOT_FOUND_IN_BLOCK
        max_input_limit := NOT_FOUND_IN_BLOCK
        timing_range_check := NOT_FOUND_IN_BLOCK }
    | none =>
      { requested_address := requested
        object_number := NOT_FOUND_IN_FILE
        address_in_file := NOT_FOUND_IN_FILE
        unitscale := NOT_FOUND_IN_BLOCK
        storage_type := NOT_FOUND_IN_BLOCK
        min_input_limit := NOT_FOUND_IN_BLOCK
        max_input_limit := NOT_FOUND_IN_BLOCK
        timing_range_check := NOT_FOUND_IN_BLOCK }

/-- lookup_addresses of parser.py. -/
def lookup_addresses (num_blocks : List NumBlock) (full_text : Str)
    (requested_addresses : List Str) : List LookupRow :=
  requested_addresses.map (lookup_row num_blocks full_text)

/-- The headers list of rows_to_markdown. -/
def headers : List Str :=
  ["Gevraagd Address".data, "Objectnummer".data, "Address in file".data,
   "UnitScale".data, "Storage Type".data, "Minimum Input Limit".data,
   "Maximum Input Limit".data, "Timing of max/min range check".data]

/-- The cells of one body row, in the order rows_to_markdown emits them. -/
def rowCells (row : LookupRow) : List Str :=
  [row.requested_address, row.object_number, row.address_in_file, row.unitscale,
   row.storage_type, row.min_input_limit, row.max_input_limit,
   row.timing_range_check]

/-- One rendered table line: vertical bar, space, the cells joined by
space-bar-space, space, vertical bar. -/
def mdLine (cells : List Str) : Str :=
  "| ".data ++ joinSep " | ".data cells ++ " |".data

/-- rows_to_markdown of parser.py. -/
def rows_to_markdown (rows : List LookupRow) : Str :=
  joinSep "\n".data
    (mdLine headers
      :: mdLine (List.replicate headers.length "---".data)
      :: rows.map (fun row => mdLine (rowCells row)))

theorem DELIMITER_ne_nil : DELIMITER ≠ [] := by decide

theorem joinSep_cons_map (sep c : Str) (cs : List Str) :
    joinSep sep (c :: cs) = c ++ (cs.map (fun p => sep ++ p)).flatten := by
  induction cs generalizing c with
  | nil => simp [joinSep]
  | cons d ds ih =>
    rw [joinSep_cons_cons, ih d]
    simp [List.append_assoc]

theorem numBlockOfPart_raw (part : Str) :
    (numBlockOfPart part).raw_block_text = DELIMITER ++ part := rfl

theorem numBlockOfPart_object (part : Str) :
    (numBlockOfPart part).object_number =
      match objectNumberMatch part with
      | some digits => "NUM".data ++ digits
      | none => NOT_FOUND_IN_BLOCK := rfl

/-- C2: parse_num_blocks yields one block per delimiter occurrence, in
document order; the text before the first occurrence contributes no block;
each block's raw text is the delimiter re-attached to its segment, the
segment contains no further delimiter occurrence, and the discarded prefix
followed by the blocks' raw texts reconstructs the document. -/
theorem parse_num_blocks_segmentation (text : Str) :
    (parse_num_blocks text).length = countOcc DELIMITER text ∧
    (∀ b ∈ parse_num_blocks text,
        ∃ part, b.raw_block_text = DELIMITER ++ part ∧
          strIn DELIMITER part = false) ∧
    (pySplit DELIMITER text).headI
        ++ ((parse_num_blocks text).map (fun b => b.raw_block_text)).flatten
      = text ∧
    strIn DELIMITER (pySplit DELIMITER text).headI = false := by
  obtain ⟨h0, t, hsplit⟩ :=
    List.exists_cons_of_ne_nil (pySplit_ne_nil DELIMITER text)
  refine ⟨?_, ?_, ?_, ?_⟩
  · rw [parse_num_blocks, List.length_map, List.length_tail, pySplit_length]
    omega
  · intro b hb
    rw [parse_num_blocks, List.mem_map] at hb
    obtain ⟨part, hpart, rfl⟩ := hb
    exact ⟨part, rfl,
      pySplit_chunk_no_occurrence DELIMITER DELIMITER_ne_nil text part
        (List.mem_of_mem_tail hpart)⟩
  · have hjoin := joinSep_pySplit DELIMITER text
    rw [hsplit, joinSep_cons_map] at hjoin
    have hmap : ((pySplit DELIMITER text).tail.map numBlockOfPart).map
        (fun b => b.raw_block_text)
        = (pySplit DELIMITER text).tail.map (fun p => DELIMITER ++ p) := by
      rw [List.map_map]
      rfl
    rw [parse_num_blocks, hmap, hsplit, List.tail_cons]
    show h0 ++ (t.map (fun p => DELIMITER ++ p)).flatten = text
    exact hjoin
  · have hmem : (pySplit DELIMITER text).headI ∈ pySplit DELIMITER text := by
      rw [hsplit]
      exact List.mem_cons_self h0 t
    exact pySplit_chunk_no_occurrence DELIMITER DELIMITER_ne_nil text _ hmem

/-- C3: for every parsed block, the object identifier is NUM plus the four
digits immediately following the delimiter in the block's raw text; when no
four digits follow the delimiter the identifier is the not-found-in-block
sentinel (the block itself is still produced: the parse is total). -/
theorem parse_num_blocks_object_number (text : Str) (b : NumBlock)
    (hb : b ∈ parse_num_blocks text) :
    (4 ≤ (b.raw_block_text.drop DELIMITER.length).length ∧
        ((b.raw_block_text.drop DELIMITER.length).take 4).all Char.isDigit = true →
      b.object_number =
        "NUM".data ++ (b.raw_block_text.drop DELIMITER.length).take 4) ∧
    (¬(4 ≤ (b.raw_block_text.drop DELIMITER.length).length ∧
        ((b.raw_block_text.drop DELIMITER.length).take 4).all Char.isDigit = true) →
      b.object_number = NOT_FOUND_IN_BLOCK) := by
  rw [parse_num_blocks, List.mem_map] at hb
  obtain ⟨part, hpart, rfl⟩ := hb
  rw [numBlockOfPart_raw, numBlockOfPart_object, List.drop_left]
  constructor
  · intro hcond
    rw [objectNumberMatch, if_pos hcond]
  · intro hcond
    rw [objectNumberMatch, if_neg hcond]

/-- Witness for C3 at a concrete document. -/
theorem parse_num_blocks_object_number_witness :
    (parse_num_blocks "Numeral Display & Input[NUM0001".data).headI.object_number
      = "NUM".data
        ++ (((parse_num_blocks
              "Numeral Display & Input[NUM0001".data).headI.raw_block_text.drop
            DELIMITER.length).take 4) := by
  have h := parse_num_blocks_object_number "Numeral Display & Input[NUM0001".data
    (parse_num_blocks "Numeral Display & Input[NUM0001".data).headI (by decide)
  exact h.1 (by decide)

/-- The value of one field slot as a top-to-bottom first-match scan over
the block's lines (specification-level restatement of the extract_fields
loop for a single field). -/
def scanField (fid : FieldId) : List Str → Str
  | [] => NOT_FOUND_IN_BLOCK
  | line :: rest =>
    match matchLabel fid line with
    | none => scanField fid rest
    | some matched_label => lineValue matched_label line rest.head?

theorem line_matches_label_prefix {line label : Str}
    (h : line_matches_label line label = true) :
    ∃ t, pyLstrip line = label ++ t := by
  rw [line_matches_label, Bool.or_eq_true, Bool.or_eq_true] at h
  rcases h with (h | h) | h
  · exact ⟨[], by rw [List.append_nil]; exact (beq_iff_eq.mp h)⟩
  · obtain ⟨u, hu⟩ := isPrefixOf_iff_append.mp h
    exact ⟨' ' :: u, by rw [← hu, List.append_assoc]; rfl⟩
  · obtain ⟨u, hu⟩ := isPrefixOf_iff_append.mp h
    exact ⟨':' :: u, by rw [← hu, List.append_assoc]; rfl⟩

theorem acceptedLabels_head (fid : FieldId) :
    ∀ lab ∈ acceptedLabels fid, lab.head? ≠ some 'n' ∧ lab ≠ [] := by
  cases fid <;> decide

theorem matched_value_ne_sentinel {fid : FieldId} {line : Str}
    (next_line : Option Str) {lab : Str} (h : matchLabel fid line = some lab) :
    lineValue lab line next_line ≠ NOT_FOUND_IN_BLOCK := by
  have hlab := List.mem_of_find?_eq_some h
  have hm := List.find?_some h
  have hh := acceptedLabels_head fid lab hlab
  have hex : ∃ t, lineValue lab line next_line = lab ++ t := by
    match next_line with
    | none => exact line_matches_label_prefix hm
    | some nxt =>
      show ∃ t, (if pyLstrip line = lab ∧ pyStrip nxt ≠ [] then
          lab ++ ' ' :: pyStrip nxt else pyLstrip line) = lab ++ t
      by_cases hc : pyLstrip line = lab ∧ pyStrip nxt ≠ []
      · rw [if_pos hc]
        exact ⟨' ' :: pyStrip nxt, rfl⟩
      · rw [if_neg hc]
        exact line_matches_label_prefix hm
  obtain ⟨t, ht⟩ := hex
  rw [ht]
  match lab, hh.2 with
  | c :: ls, _ =>
    intro heq
    have hn : NOT_FOUND_IN_BLOCK = 'n' :: "ot found in block".data := rfl
    rw [List.cons_append, hn, List.cons.injEq] at heq
    exact hh.1 (by rw [heq.1]; rfl)

theorem extractLoop_eq_scanField (lines : List Str) :
    ∀ (values : FieldId → Str) (fid : FieldId),
      extractLoop lines values fid =
        if values fid = NOT_FOUND_IN_BLOCK then scanField fid lines
        else values fid := by
  induction lines with
  | nil =>
    intro values fid
    by_cases h : values fid = NOT_FOUND_IN_BLOCK <;>
      simp [extractLoop, scanField, h]
  | cons line rest ih =>
    intro values fid
    rw [extractLoop, ih]
    by_cases hv : values fid = NOT_FOUND_IN_BLOCK
    · rw [show stepField line rest.head? fid (values fid)
            = stepField line rest.head? fid NOT_FOUND_IN_BLOCK from by rw [hv]]
      rw [if_pos hv,
        stepField, if_neg (by simp : ¬NOT_FOUND_IN_BLOCK ≠ NOT_FOUND_IN_BLOCK)]
      cases hm : matchLabel fid line with
      | none => simp [scanField, hm]
      | some lab =>
        simp only [scanField, hm]
        rw [if_neg (matched_value_ne_sentinel rest.head? hm)]
    · rw [if_neg hv, stepField, if_pos hv, if_neg hv]

theorem extract_fields_eq_scanField (block_text : Str) (fid : FieldId) :
    extract_fields block_text fid = scanField fid (linesOf block_text) := by
  rw [extract_fields, extractLoop_eq_scanField]
  rw [if_pos rfl]

theorem scanField_eq_sentinel_of_no_match (fid : FieldId) (lines : List Str)
    (h : ∀ l ∈ lines, matchLabel fid l = none) :
    scanField fid lines = NOT_FOUND_IN_BLOCK := by
  induction lines with
  | nil => rfl
  | cons line rest ih =>
    rw [scanField, h line (List.mem_cons_self line rest)]
    exact ih (fun l hl => h l (List.mem_cons_of_mem line hl))

theorem scanField_eq_of_first_match (fid : FieldId) :
    ∀ (lines : List Str) (i : Nat) (line lab : Str),
      lines[i]? = some line → matchLabel fid line = some lab →
      (∀ j line', j < i → lines[j]? = some line' → matchLabel fid line' = none) →
      scanField fid lines = lineValue lab line lines[i + 1]? := by
  intro lines
  induction lines with
  | nil => intro i line lab hline; simp at hline
  | cons l rest ih =>
    intro i line lab hline hm hfirst
    match i with
    | 0 =>
      rw [List.getElem?_cons_zero, Option.some.injEq] at hline
      subst hline
      rw [scanField, hm, List.getElem?_cons_succ]
      rw [List.head?_eq_getElem?]
    | i' + 1 =>
      rw [List.getElem?_cons_succ] at hline
      have h0 : matchLabel fid l = none :=
        hfirst 0 l (by omega) List.getElem?_cons_zero
      rw [scanField, h0, List.getElem?_cons_succ]
      exact ih i' line lab hline hm
        (fun j line' hj hjline =>
          hfirst (j + 1) line' (by omega)
            (by rw [List.getElem?_cons_succ]; exact hjline))

/-- C4: for every block text and every field, if no line matches an
accepted label the field keeps the not-found-in-block sentinel; and at the
first matching line, the value is label + " " + the next line's stripped
content when the matched line is exactly the label (after left-trimming)
and the immediately following line exists and is non-blank, else the
matched line itself, left-trimmed, in full. -/
theorem extract_fields_layout (block_text : Str) (fid : FieldId) :
    ((∀ l ∈ linesOf block_text, matchLabel fid l = none) →
      extract_fields block_text fid = NOT_FOUND_IN_BLOCK) ∧
    (∀ i line lab, (linesOf block_text)[i]? = some line →
      matchLabel fid line = some lab →
      (∀ j line', j < i → (linesOf block_text)[j]? = some line' →
        matchLabel fid line' = none) →
      extract_fields block_text fid =
        match (linesOf block_text)[i + 1]? with
        | some nxt =>
          if pyLstrip line = lab ∧ pyStrip nxt ≠ [] then
            lab ++ ' ' :: pyStrip nxt
          else pyLstrip line
        | none => pyLstrip line) := by
  constructor
  · intro h
    rw [extract_fields_eq_scanField]
    exact scanField_eq_sentinel_of_no_match fid _ h
  · intro i line lab hline hm hfirst
    rw [extract_fields_eq_scanField,
      scanField_eq_of_first_match fid _ i line lab hline hm hfirst]
    match (linesOf block_text)[i + 1]? with
    | none => rfl
    | some nxt => rfl

/-- C5: field matching is first-match-wins: when line i is the first line
of the block (lines split on newline, trailing carriage return trimmed)
that matches one of the field's accepted labels, the field's value is
determined by that line and its immediate successor alone — any other line
list that agrees up to position i+1 yields the same value, so later
candidate lines never overwrite it — and the value is no longer the
sentinel. -/
theorem extract_fields_first_match_wins (block_text : Str) (fid : FieldId)
    (i : Nat) (line lab : Str)
    (hline : (linesOf block_text)[i]? = some line)
    (hm : matchLabel fid line = some lab)
    (hfirst : ∀ j line', j < i → (linesOf block_text)[j]? = some line' →
      matchLabel fid line' = none) :
    extract_fields block_text fid
        = lineValue lab line ((linesOf block_text)[i + 1]?) ∧
    extract_fields block_text fid ≠ NOT_FOUND_IN_BLOCK ∧
    ∀ other_lines : List Str,
      (∀ k, k ≤ i + 1 → other_lines[k]? = (linesOf block_text)[k]?) →
      extractLoop other_lines (fun _ => NOT_FOUND_IN_BLOCK) fid
        = extract_fields block_text fid := by
  have hval := scanField_eq_of_first_match fid _ i line lab hline hm hfirst
  refine ⟨by rw [extract_fields_eq_scanField, hval], ?_, ?_⟩
  · rw [extract_fields_eq_scanField, hval]
    exact matched_value_ne_sentinel _ hm
  · intro other_lines hagree
    rw [extractLoop_eq_scanField, if_pos rfl,
      extract_fields_eq_scanField, hval,
      scanField_eq_of_first_match fid other_lines i line lab
        (by rw [hagree i (by omega)]; exact hline) hm
        (fun j line' hj hjline =>
          hfirst j line' hj (by rw [← hagree j (by omega)]; exact hjline)),
      hagree (i + 1) (by omega)]

/-- Witness for C5 at a concrete block: the general-section Address line
wins over the later Flicker-section Address line. -/
theorem extract_fields_first_match_wins_witness :
    extract_fields
        "Address ETHERNET:A\nFlicker\nAddress\nETHERNET:B".data
        FieldId.address_line
      = "Address ETHERNET:A".data := by
  have h := extract_fields_first_match_wins
    "Address ETHERNET:A\nFlicker\nAddress\nETHERNET:B".data
    FieldId.address_line 0 "Address ETHERNET:A".data "Address".data
    (by decide) (by decide) (fun j line' hj _ => absurd hj (by omega))
  rw [h.1]
  decide

theorem variant_contains_iff (r addr : Str) :
    (searchVariants r).contains addr = true ↔
      (addr = "Address ETHERNET:".data ++ r ∨ addr = "Address ".data ++ r) := by
  simp [searchVariants, List.contains]

/-- C1: lookup_addresses is a three-tier total classification: one row per
request, in request order, and each row either copies a matching block's
fields verbatim (some block's address field equals one of the two candidate
forms), or reports the found-outside-NUM-block marker with the matched
candidate (a substring of the document) and the remaining five fields
sentineled, or reports the not-found-in-file sentinel for object number and
address with the remaining five fields sentineled. -/
theorem lookup_addresses_three_tier (num_blocks : List NumBlock)
    (full_text : Str) (requested_addresses : List Str) :
    (lookup_addresses num_blocks full_text requested_addresses).length
      = requested_addresses.length ∧
    ∀ (i : Nat) (r : Str), requested_addresses[i]? = some r →
      ∃ row,
        (lookup_addresses num_blocks full_text requested_addresses)[i]?
          = some row ∧
        row.requested_address = r ∧
        ((∃ b ∈ num_blocks,
            (b.address_line = "Address ETHERNET:".data ++ r ∨
              b.address_line = "Address ".data ++ r) ∧
            row = blockRow r b) ∨
         ((∀ b ∈ num_blocks,
            b.address_line ≠ "Address ETHERNET:".data ++ r ∧
            b.address_line ≠ "Address ".data ++ r) ∧
          (strIn ("Address ETHERNET:".data ++ r) full_text = true ∨
            strIn ("Address ".data ++ r) full_text = true) ∧
          row.object_number = FOUND_OUTSIDE_NUM_BLOCK ∧
          (row.address_in_file = "Address ETHERNET:".data ++ r ∨
            row.address_in_file = "Address ".data ++ r) ∧
          strIn row.address_in_file full_text = true ∧
          row.unitscale = NOT_FOUND_IN_BLOCK ∧
          row.storage_type = NOT_FOUND_IN_BLOCK ∧
          row.min_input_limit = NOT_FOUND_IN_BLOCK ∧
          row.max_input_limit = NOT_FOUND_IN_BLOCK ∧
          row.timing_range_check = NOT_FOUND_IN_BLOCK) ∨
         ((∀ b ∈ num_blocks,
            b.address_line ≠ "Address ETHERNET:".data ++ r ∧
            b.address_line ≠ "Address ".data ++ r) ∧
          strIn ("Address ETHERNET:".data ++ r) full_text = false ∧
          strIn ("Address ".data ++ r) full_text = false ∧
          row.object_number = NOT_FOUND_IN_FILE ∧
          row.address_in_file = NOT_FOUND_IN_FILE ∧
          row.unitscale = NOT_FOUND_IN_BLOCK ∧
          row.storage_type = NOT_FOUND_IN_BLOCK ∧
          row.min_input_limit = NOT_FOUND_IN_BLOCK ∧
          row.max_input_limit = NOT_FOUND_IN_BLOCK ∧
          row.timing_range_check = NOT_FOUND_IN_BLOCK)) := by
  constructor
  · rw [lookup_addresses, List.length_map]
  · intro i r hr
    refine ⟨lookup_row num_blocks full_text r, ?_, ?_, ?_⟩
    · rw [lookup_addresses, List.getElem?_map, hr, Option.map_some']
    · rw [lookup_row]
      cases hfind : List.find?
          (fun block => (searchVariants r).contains block.address_line)
          num_blocks <;> simp only []
      case some b => rfl
      case none =>
        cases List.find? (fun variant => strIn variant full_text)
            (searchVariants r) <;> rfl
    · cases hfind : List.find?
          (fun block => (searchVariants r).contains block.address_line)
          num_blocks with
      | some b =>
        left
        refine ⟨b, List.mem_of_find?_eq_some hfind, ?_, ?_⟩
        · have hp0 := List.find?_some hfind
          have hp : (searchVariants r).contains b.address_line = true := hp0
          exact (variant_contains_iff r b.address_line).mp hp
        · rw [lookup_row, hfind]
      | none =>
        have hno : ∀ b ∈ num_blocks,
            b.address_line ≠ "Address ETHERNET:".data ++ r ∧
            b.address_line ≠ "Address ".data ++ r := by
          intro b hb
          have h := List.find?_eq_none.mp hfind b hb
          rw [variant_contains_iff] at h
          push_neg at h
          exact h
        cases hfind2 : List.find? (fun variant => strIn variant full_text)
            (searchVariants r) with
        | some v =>
          right; left
          have hv := List.find?_some hfind2
          have hvm := List.mem_of_find?_eq_some hfind2
          simp only [searchVariants, List.mem_cons, List.mem_singleton,
            List.not_mem_nil, or_false] at hvm
          have hrow : lookup_row num_blocks full_text r =
              { requested_address := r
                object_number := FOUND_OUTSIDE_NUM_BLOCK
                address_in_file := v
                unitscale := NOT_FOUND_IN_BLOCK
                storage_type := NOT_FOUND_IN_BLOCK
                min_input_limit := NOT_FOUND_IN_BLOCK
                max_input_limit := NOT_FOUND_IN_BLOCK
                timing_range_check := NOT_FOUND_IN_BLOCK } := by
            rw [lookup_row, hfind, hfind2]
          rw [hrow]
          exact ⟨hno, by rcases hvm with rfl | rfl; exact Or.inl hv; exact Or.inr hv,
            rfl, by rcases hvm with rfl | rfl; exact Or.inl rfl; exact Or.inr rfl,
            hv, rfl, rfl, rfl, rfl, rfl⟩
        | none =>
          right; right
          have hnone := List.find?_eq_none.mp hfind2
          have heth : strIn ("Address ETHERNET:".data ++ r) full_text = false := by
            have := hnone ("Address ETHERNET:".data ++ r)
              (by simp [searchVariants])
            simpa using this
          have hplain : strIn ("Address ".data ++ r) full_text = false := by
            have := hnone ("Address ".data ++ r) (by simp [searchVariants])
            simpa using this
          have hrow : lookup_row num_blocks full_text r =
              { requested_address := r
                object_number := NOT_FOUND_IN_FILE
                address_in_file := NOT_FOUND_IN_FILE
                unitscale := NOT_FOUND_IN_BLOCK
                storage_type := NOT_FOUND_IN_BLOCK
                min_input_limit := NOT_FOUND_IN_BLOCK
                max_input_limit := NOT_FOUND_IN_BLOCK
                timing_range_check := NOT_FOUND_IN_BLOCK } := by
            rw [lookup_row, hfind, hfind2]
          rw [hrow]
          exact ⟨hno, heth, hplain, rfl, rfl, rfl, rfl, rfl, rfl, rfl⟩

/-- C9: in lookup tier 1 the earliest matching block in document order
wins: whatever blocks follow it, the row is built from the first block
whose address field equals one of the two candidate forms. -/
theorem lookup_first_matching_block_wins (pre post : List NumBlock)
    (b : NumBlock) (full_text : Str) (requested_addresses : List Str)
    (i : Nat) (r : Str)
    (hr : requested_addresses[i]? = some r)
    (hb : b.address_line = "Address ETHERNET:".data ++ r ∨
      b.address_line = "Address ".data ++ r)
    (hpre : ∀ b' ∈ pre, b'.address_line ≠ "Address ETHERNET:".data ++ r ∧
      b'.address_line ≠ "Address ".data ++ r) :
    (lookup_addresses (pre ++ b :: post) full_text requested_addresses)[i]?
      = some (blockRow r b) := by
  rw [lookup_addresses, List.getElem?_map, hr, Option.map_some']
  have hfind : List.find?
      (fun block => (searchVariants r).contains block.address_line)
      (pre ++ b :: post) = some b := by
    rw [List.find?_append]
    have hpre' : List.find?
        (fun block => (searchVariants r).contains block.address_line) pre
        = none := by
      rw [List.find?_eq_none]
      intro b' hb'
      intro hcontra
      have h := (variant_contains_iff r b'.address_line).mp hcontra
      rcases h with h | h
      · exact (hpre b' hb').1 h
      · exact (hpre b' hb').2 h
    rw [hpre', Option.none_or]
    exact List.find?_cons_of_pos post ((variant_contains_iff r b.address_line).mpr hb)
  rw [lookup_row, hfind]

/-- Witness for C9: the first of two matching blocks provides the row,
whatever comes after it. -/
theorem lookup_first_matching_block_wins_witness :
    (lookup_addresses
        [⟨"NUM0002".data, [], "no match".data, [], [], [], [], []⟩,
         ⟨"NUM0001".data, [], "Address 100".data, "U1".data, [], [], [], []⟩,
         ⟨"NUM0003".data, [], "Address 100".data, "U2".data, [], [], [], []⟩]
        [] ["100".data])[0]?
      = some (blockRow "100".data
          ⟨"NUM0001".data, [], "Address 100".data, "U1".data, [], [], [], []⟩) := by
  exact lookup_first_matching_block_wins
    [⟨"NUM0002".data, [], "no match".data, [], [], [], [], []⟩]
    [⟨"NUM0003".data, [], "Address 100".data, "U2".data, [], [], [], []⟩]
    ⟨"NUM0001".data, [], "Address 100".data, "U1".data, [], [], [], []⟩
    [] ["100".data] 0 "100".data (by decide) (by decide) (by decide)

/-- C10: in lookup tier 2 the candidate forms are tried in a fixed order:
when no block matches, the network-qualified form is reported whenever it
occurs in the document text, and the plain form is reported only when the
network-qualified form is absent. -/
theorem lookup_outside_variant_order (num_blocks : List NumBlock)
    (full_text r : Str)
    (hnoblock : ∀ b ∈ num_blocks,
      b.address_line ≠ "Address ETHERNET:".data ++ r ∧
      b.address_line ≠ "Address ".data ++ r) :
    (strIn ("Address ETHERNET:".data ++ r) full_text = true →
      (lookup_row num_blocks full_text r).object_number
          = FOUND_OUTSIDE_NUM_BLOCK ∧
      (lookup_row num_blocks full_text r).address_in_file
          = "Address ETHERNET:".data ++ r) ∧
    (strIn ("Address ETHERNET:".data ++ r) full_text = false →
      strIn ("Address ".data ++ r) full_text = true →
      (lookup_row num_blocks full_text r).object_number
          = FOUND_OUTSIDE_NUM_BLOCK ∧
      (lookup_row num_blocks full_text r).address_in_file
          = "Address ".data ++ r) := by
  have hfind : List.find?
      (fun block => (searchVariants r).contains block.address_line)
      num_blocks = none := by
    rw [List.find?_eq_none]
    intro b hb hcontra
    have h := (variant_contains_iff r b.address_line).mp hcontra
    rcases h with h | h
    · exact (hnoblock b hb).1 h
    · exact (hnoblock b hb).2 h
  constructor
  · intro heth
    have hfind2 : List.find? (fun variant => strIn variant full_text)
        (searchVariants r) = some ("Address ETHERNET:".data ++ r) :=
      List.find?_cons_of_pos _ heth
    rw [lookup_row, hfind, hfind2]
    exact ⟨rfl, rfl⟩
  · intro heth hplain
    have heth' : ¬ strIn ("Address ETHERNET:".data ++ r) full_text = true := by
      rw [heth]
      simp
    have hfind2 : List.find? (fun variant => strIn variant full_text)
        (searchVariants r) = some ("Address ".data ++ r) := by
      rw [searchVariants,
        @List.find?_cons_of_neg Str (fun variant => strIn variant full_text)
          ("Address ETHERNET:".data ++ r) ["Address ".data ++ r] heth']
      exact List.find?_cons_of_pos _ hplain
    rw [lookup_row, hfind, hfind2]
    exact ⟨rfl, rfl⟩

/-- Witness for C10: with both candidate forms present in the text and no
blocks at all, the network-qualified form is the one reported. -/
theorem lookup_outside_variant_order_witness :
    (lookup_row [] "Address ETHERNET:7 en Address 7".data "7".data).address_in_file
      = "Address ETHERNET:".data ++ "7".data := by
  have h := lookup_outside_variant_order [] "Address ETHERNET:7 en Address 7".data
    "7".data (by simp)
  exact (h.1 (by decide)).2

theorem foldl_min_le_init (xs : List Nat) : ∀ x, xs.foldl Nat.min x ≤ x := by
  induction xs with
  | nil => intro x; simp
  | cons a as ih =>
    intro x
    rw [List.foldl_cons]
    exact le_trans (ih (Nat.min x a)) (Nat.min_le_left x a)

theorem foldl_min_le_mem (xs : List Nat) :
    ∀ x y, y ∈ xs → xs.foldl Nat.min x ≤ y := by
  induction xs with
  | nil => intro x y hy; simp at hy
  | cons a as ih =>
    intro x y hy
    rw [List.foldl_cons]
    rcases List.mem_cons.mp hy with rfl | hy
    · exact le_trans (foldl_min_le_init as (Nat.min x y)) (Nat.min_le_right x y)
    · exact ih (Nat.min x a) y hy

theorem foldl_min_mem (xs : List Nat) :
    ∀ x, xs.foldl Nat.min x = x ∨ xs.foldl Nat.min x ∈ xs := by
  induction xs with
  | nil => intro x; exact Or.inl rfl
  | cons a as ih =>
    intro x
    rw [List.foldl_cons]
    rcases ih (Nat.min x a) with h | h
    · rcases Nat.le_total x a with hxa | hxa
      · refine Or.inl ?_
        rw [h]
        simp only [Nat.min]
        omega
      · refine Or.inr ?_
        have hmin : Nat.min x a = a := by
          simp only [Nat.min]
          omega
        rw [h, hmin]
        exact List.mem_cons_self a as
    · exact Or.inr (List.mem_cons_of_mem a h)

theorem foldl_max_ge_init (xs : List Nat) : ∀ x, x ≤ xs.foldl Nat.max x := by
  induction xs with
  | nil => intro x; simp
  | cons a as ih =>
    intro x
    rw [List.foldl_cons]
    exact le_trans (Nat.le_max_left x a) (ih (Nat.max x a))

theorem foldl_max_ge_mem (xs : List Nat) :
    ∀ x y, y ∈ xs → y ≤ xs.foldl Nat.max x := by
  induction xs with
  | nil => intro x y hy; simp at hy
  | cons a as ih =>
    intro x y hy
    rw [List.foldl_cons]
    rcases List.mem_cons.mp hy with rfl | hy
    · exact le_trans (Nat.le_max_right x y) (foldl_max_ge_init as (Nat.max x y))
    · exact ih (Nat.max x a) y hy

theorem foldl_max_mem (xs : List Nat) :
    ∀ x, xs.foldl Nat.max x = x ∨ xs.foldl Nat.max x ∈ xs := by
  induction xs with
  | nil => intro x; exact Or.inl rfl
  | cons a as ih =>
    intro x
    rw [List.foldl_cons]
    rcases ih (Nat.max x a) with h | h
    · rcases Nat.le_total x a with hxa | hxa
      · refine Or.inr ?_
        have hmax : Nat.max x a = a := by
          simp only [Nat.max]
          omega
        rw [h, hmax]
        exact List.mem_cons_self a as
      · refine Or.inl ?_
        have hmax : Nat.max x a = x := by
          simp only [Nat.max]
          omega
        rw [h, hmax]
    · exact Or.inr (List.mem_cons_of_mem a h)

theorem pyMinL_le {xs : List Nat} {y : Nat} (hy : y ∈ xs) : pyMinL xs ≤ y := by
  match xs, hy with
  | x :: t, hy =>
    rcases List.mem_cons.mp hy with rfl | hy
    · exact foldl_min_le_init t y
    · exact foldl_min_le_mem t x y hy

theorem pyMinL_mem {xs : List Nat} (h : xs ≠ []) : pyMinL xs ∈ xs := by
  match xs with
  | x :: t =>
    rcases foldl_min_mem t x with hm | hm
    · rw [pyMinL, hm]; exact List.mem_cons_self x t
    · exact List.mem_cons_of_mem x hm

theorem pyMaxL_ge {xs : List Nat} {y : Nat} (hy : y ∈ xs) : y ≤ pyMaxL xs := by
  match xs, hy with
  | x :: t, hy =>
    rcases List.mem_cons.mp hy with rfl | hy
    · exact foldl_max_ge_init t y
    · exact foldl_max_ge_mem t x y hy

theorem pyMaxL_mem {xs : List Nat} (h : xs ≠ []) : pyMaxL xs ∈ xs := by
  match xs with
  | x :: t =>
    rcases foldl_max_mem t x with hm | hm
    · rw [pyMaxL, hm]; exact List.mem_cons_self x t
    · exact List.mem_cons_of_mem x hm

/-- The numeric values of the canonical identifiers present in a block
list, in block order (specification-level: build_diagnostics works with the
sorted list, which is a permutation of this one). -/
def presentCanonicalValues (num_blocks : List NumBlock) : List Nat :=
  (num_blocks.filter (fun b => isCanonical b.object_number)).map
    (fun b => object_int b.object_number)

/-- The gap computation of build_diagnostics as a function of the sorted
canonical identifier list (definitionally equal to the source's let-block). -/
def missingFor (valid_numbers : List Str) : List Str :=
  if valid_numbers = [] then []
  else
    ((List.range' (pyMinL (valid_numbers.map object_int))
        (pyMaxL (valid_numbers.map object_int) + 1
          - pyMinL (valid_numbers.map object_int))).filter
      (fun value => !(valid_numbers.map object_int).contains value)).map fmtNUM

theorem build_diagnostics_missing_eq (num_blocks : List NumBlock) :
    (build_diagnostics num_blocks).missing_numbers
      = missingFor
          (List.insertionSort (fun a b => object_int a ≤ object_int b)
            ((num_blocks.filter (fun b => isCanonical b.object_number)).map
              (fun b => b.object_number))) := rfl

theorem contains_eq_false_of_not_mem {l : List Nat} {v : Nat} (h : v ∉ l) :
    l.contains v = false := by
  rw [← Bool.not_eq_true, List.elem_iff]
  exact h

theorem missingFor_spec (valid : List Str) :
    (valid.length ≤ 1 → missingFor valid = []) ∧
    (∀ s : Str, s ∈ missingFor valid ↔
      ∃ v : Nat, v ∉ valid.map object_int ∧
        (∃ lo ∈ valid.map object_int, lo ≤ v) ∧
        (∃ hi ∈ valid.map object_int, v ≤ hi) ∧ s = fmtNUM v) := by
  by_cases hv : valid = []
  · subst hv
    exact ⟨fun _ => rfl, fun s => by simp [missingFor]⟩
  · constructor
    · intro hlen
      have hone : valid.length = 1 :=
        Nat.le_antisymm hlen (List.length_pos.mpr hv)
      obtain ⟨a, rfl⟩ := List.length_eq_one.mp hone
      rw [missingFor, if_neg (by simp)]
      have h1 : pyMinL ([a].map object_int) = object_int a := rfl
      have h2 : pyMaxL ([a].map object_int) = object_int a := rfl
      rw [h1, h2, show object_int a + 1 - object_int a = 1 from by omega,
        List.range'_one]
      simp [List.contains]
    · intro s
      rw [missingFor, if_neg hv]
      have hnv : valid.map object_int ≠ [] := by
        intro hcontra
        exact hv (List.map_eq_nil_iff.mp hcontra)
      have hlo := pyMinL_mem hnv
      have hhi := pyMaxL_mem hnv
      have hlohi : pyMinL (valid.map object_int)
          ≤ pyMaxL (valid.map object_int) := pyMaxL_ge hlo
      constructor
      · intro hs
        rw [List.mem_map] at hs
        obtain ⟨v, hvmem, rfl⟩ := hs
        rw [List.mem_filter] at hvmem
        obtain ⟨hvr, hvc⟩ := hvmem
        rw [List.mem_range'_1] at hvr
        have hnotmem : v ∉ valid.map object_int := by
          intro hmm
          rw [Bool.not_eq_true'] at hvc
          have h3 : (valid.map object_int).contains v = true :=
            List.elem_iff.mpr hmm
          rw [h3] at hvc
          cases hvc
        exact ⟨v, hnotmem, ⟨pyMinL _, hlo, hvr.1⟩,
          ⟨pyMaxL _, hhi, by omega⟩, rfl⟩
      · rintro ⟨v, hnot, ⟨lo, hlomem, hlov⟩, ⟨hi, hhimem, hvhi⟩, rfl⟩
        rw [List.mem_map]
        refine ⟨v, ?_, rfl⟩
        rw [List.mem_filter, List.mem_range'_1]
        have h1 : pyMinL (valid.map object_int) ≤ lo := pyMinL_le hlomem
        have h2 : hi ≤ pyMaxL (valid.map object_int) := pyMaxL_ge hhimem
        refine ⟨⟨by omega, by omega⟩, ?_⟩
        rw [contains_eq_false_of_not_mem hnot]
        rfl

/-- C6: missing_numbers consists exactly of the formatted values lying
between some present canonical value below and some present canonical value
above (that is, between the minimum and the maximum present value) but
absent from the present set; it is empty when at most one canonical
identifier exists; and canonical identifiers NUM0001 and NUM0003 yield
exactly [NUM0002]. -/
theorem build_diagnostics_missing_numbers (num_blocks : List NumBlock) :
    ((presentCanonicalValues num_blocks).length ≤ 1 →
      (build_diagnostics num_blocks).missing_numbers = []) ∧
    (∀ s : Str, s ∈ (build_diagnostics num_blocks).missing_numbers ↔
      ∃ v : Nat, v ∉ presentCanonicalValues num_blocks ∧
        (∃ lo ∈ presentCanonicalValues num_blocks, lo ≤ v) ∧
        (∃ hi ∈ presentCanonicalValues num_blocks, v ≤ hi) ∧
        s = fmtNUM v) ∧
    (build_diagnostics
        [{ object_number := "NUM0001".data, raw_block_text := [],
           address_line := NOT_FOUND_IN_BLOCK,
           unitscale_line := NOT_FOUND_IN_BLOCK,
           storage_type_line := NOT_FOUND_IN_BLOCK,
           min_input_limit_line := NOT_FOUND_IN_BLOCK,
           max_input_limit_line := NOT_FOUND_IN_BLOCK,
           timing_range_check_line := NOT_FOUND_IN_BLOCK },
         { object_number := "NUM0003".data, raw_block_text := [],
           address_line := NOT_FOUND_IN_BLOCK,
           unitscale_line := NOT_FOUND_IN_BLOCK,
           storage_type_line := NOT_FOUND_IN_BLOCK,
           min_input_limit_line := NOT_FOUND_IN_BLOCK,
           max_input_limit_line := NOT_FOUND_IN_BLOCK,
           timing_range_check_line := NOT_FOUND_IN_BLOCK }]).missing_numbers
      = ["NUM0002".data] := by
  have key := missingFor_spec
    (List.insertionSort (fun a b => object_int a ≤ object_int b)
      ((num_blocks.filter (fun b => isCanonical b.object_number)).map
        (fun b => b.object_number)))
  have hperm :
      List.Perm
        ((List.insertionSort (fun a b => object_int a ≤ object_int b)
          ((num_blocks.filter (fun b => isCanonical b.object_number)).map
            (fun b => b.object_number))).map object_int)
        (presentCanonicalValues num_blocks) := by
    have h1 := List.perm_insertionSort
      (fun a b => object_int a ≤ object_int b)
      ((num_blocks.filter (fun b => isCanonical b.object_number)).map
        (fun b => b.object_number))
    have h2 := h1.map object_int
    rw [List.map_map] at h2
    exact h2
  have hmm : ∀ v : Nat,
      v ∈ (List.insertionSort (fun a b => object_int a ≤ object_int b)
          ((num_blocks.filter (fun b => isCanonical b.object_number)).map
            (fun b => b.object_number))).map object_int
        ↔ v ∈ presentCanonicalValues num_blocks := fun v => hperm.mem_iff
  refine ⟨?_, ?_, ?_⟩
  · intro hl
    rw [build_diagnostics_missing_eq]
    apply key.1
    have hlen := hperm.length_eq
    rw [List.length_map] at hlen
    omega
  · intro s
    rw [build_diagnostics_missing_eq, key.2 s]
    constructor
    · rintro ⟨v, hnot, ⟨lo, hlo, h1⟩, ⟨hi, hhi, h2⟩, rfl⟩
      exact ⟨v, fun hc => hnot ((hmm v).mpr hc),
        ⟨lo, (hmm lo).mp hlo, h1⟩, ⟨hi, (hmm hi).mp hhi, h2⟩, rfl⟩
    · rintro ⟨v, hnot, ⟨lo, hlo, h1⟩, ⟨hi, hhi, h2⟩, rfl⟩
      exact ⟨v, fun hc => hnot ((hmm v).mp hc),
        ⟨lo, (hmm lo).mpr hlo, h1⟩, ⟨hi, (hmm hi).mpr hhi, h2⟩, rfl⟩
  · decide

/-- The distinct values of a list in first-seen order (the key order of a
Python insertion-ordered dict). -/
def dedupFirst (l : List Str) : List Str :=
  l.foldl (fun acc y => if acc.contains y then acc else acc ++ [y]) []

/-- The grouping pass of build_diagnostics over (address, object number)
pairs. -/
def groupPairs (pairs : List (Str × Str)) : List (Str × List Str) :=
  pairs.foldl (fun acc p => addDup acc p.1 p.2) []

/-- The values grouped under one key, in pair order. -/
def valuesFor (pairs : List (Str × Str)) (k : Str) : List Str :=
  (pairs.filter (fun p => p.1 == k)).map Prod.snd

theorem dedup_foldl_mem (l : List Str) : ∀ (acc : List Str) (x : Str),
    x ∈ l.foldl (fun acc y => if acc.contains y then acc else acc ++ [y]) acc
      ↔ x ∈ acc ∨ x ∈ l := by
  induction l with
  | nil => intro acc x; simp
  | cons y ys ih =>
    intro acc x
    rw [List.foldl_cons]
    by_cases hy : acc.contains y = true
    · rw [if_pos hy, ih]
      have hymem : y ∈ acc := List.elem_iff.mp hy
      constructor
      · rintro (h | h)
        · exact Or.inl h
        · exact Or.inr (List.mem_cons_of_mem y h)
      · rintro (h | h)
        · exact Or.inl h
        · rcases List.mem_cons.mp h with rfl | h
          · exact Or.inl hymem
          · exact Or.inr h
    · rw [if_neg hy, ih]
      simp only [List.mem_append, List.mem_singleton, List.mem_cons]
      tauto

theorem dedupFirst_mem (l : List Str) (x : Str) :
    x ∈ dedupFirst l ↔ x ∈ l := by
  rw [dedupFirst, dedup_foldl_mem]
  simp

theorem dedupFirst_append_singleton (l : List Str) (k : Str) :
    dedupFirst (l ++ [k])
      = if (dedupFirst l).contains k then dedupFirst l
        else dedupFirst l ++ [k] := by
  rw [dedupFirst, List.foldl_append]
  rfl

theorem groupPairs_append_singleton (pairs : List (Str × Str)) (p : Str × Str) :
    groupPairs (pairs ++ [p]) = addDup (groupPairs pairs) p.1 p.2 := by
  rw [groupPairs, List.foldl_append]
  rfl

theorem valuesFor_append_singleton (pairs : List (Str × Str)) (q : Str × Str)
    (k : Str) :
    valuesFor (pairs ++ [q]) k
      = valuesFor pairs k ++ (if q.1 == k then [q.2] else []) := by
  rw [valuesFor, List.filter_append, List.map_append, valuesFor]
  by_cases hq : (q.1 == k) = true
  · rw [if_pos hq]
    simp [List.filter, hq]
  · rw [if_neg hq]
    simp only [List.filter, hq]
    rfl

theorem groupPairs_spec (pairs : List (Str × Str)) :
    groupPairs pairs
      = (dedupFirst (pairs.map Prod.fst)).map
          (fun k => (k, valuesFor pairs k)) := by
  induction pairs using List.reverseRecOn with
  | nil => rfl
  | append_singleton ps q ih =>
    rw [groupPairs_append_singleton, ih, List.map_append, List.map_singleton,
      dedupFirst_append_singleton]
    by_cases hk : (dedupFirst (ps.map Prod.fst)).contains q.1 = true
    · rw [if_pos hk]
      have hkmem : q.1 ∈ ps.map Prod.fst :=
        (dedupFirst_mem _ _).mp (List.elem_iff.mp hk)
      have hcond : ((dedupFirst (ps.map Prod.fst)).map
          (fun k => (k, valuesFor ps k))).any (fun p => p.1 == q.1) = true := by
        rw [List.any_eq_true]
        refine ⟨(q.1, valuesFor ps q.1), ?_, by simp⟩
        rw [List.mem_map]
        exact ⟨q.1, (dedupFirst_mem _ _).mpr hkmem, rfl⟩
      rw [addDup, if_pos hcond, List.map_map]
      apply List.map_congr_left
      intro a _
      simp only [Function.comp]
      by_cases ha : (a == q.1) = true
      · have ha' : a = q.1 := beq_iff_eq.mp ha
        rw [if_pos (by simp [ha']), valuesFor_append_singleton]
        subst ha'
        simp
      · have ha' : ¬ a = q.1 := fun hcontra => ha (beq_iff_eq.mpr hcontra)
        rw [if_neg (by simp [ha']), valuesFor_append_singleton]
        have : (q.1 == a) = false := by
          rw [beq_eq_false_iff_ne]
          exact fun hcontra => ha' hcontra.symm
        rw [this]
        simp
    · rw [if_neg hk]
      have hknotmem : q.1 ∉ ps.map Prod.fst := by
        intro hcontra
        exact hk (List.elem_iff.mpr ((dedupFirst_mem _ _).mpr hcontra))
      have hcond : ((dedupFirst (ps.map Prod.fst)).map
          (fun k => (k, valuesFor ps k))).any (fun p => p.1 == q.1) = false := by
        rw [Bool.eq_false_iff]
        intro hcontra
        rw [List.any_eq_true] at hcontra
        obtain ⟨x, hx, hxeq⟩ := hcontra
        rw [List.mem_map] at hx
        obtain ⟨a, ha, rfl⟩ := hx
        have : a = q.1 := beq_iff_eq.mp hxeq
        subst this
        exact hknotmem ((dedupFirst_mem _ _).mp ha)
      rw [addDup, if_neg (by rw [hcond]; exact Bool.false_ne_true),
        List.map_append]
      congr 1
      · apply List.map_congr_left
        intro a ha
        rw [valuesFor_append_singleton]
        have hane : ¬ a = q.1 := by
          intro hcontra
          subst hcontra
          exact hknotmem ((dedupFirst_mem _ _).mp ha)
        have : (q.1 == a) = false := by
          rw [beq_eq_false_iff_ne]
          exact fun hcontra => hane hcontra.symm
        rw [this]
        simp
      · rw [List.map_singleton, valuesFor_append_singleton]
        have hvnil : valuesFor ps q.1 = [] := by
          rw [valuesFor, List.filter_eq_nil_iff.mpr, List.map_nil]
          intro p hp hcontra
          exact hknotmem (List.mem_map.mpr ⟨p, hp, (beq_iff_eq.mp hcontra)⟩)
        rw [hvnil]
        simp

/-- The blocks carrying a real (non-sentinel) address, in block order. -/
def addressedBlocks (num_blocks : List NumBlock) : List NumBlock :=
  num_blocks.filter (fun b => b.address_line ≠ NOT_FOUND_IN_BLOCK)

/-- The object numbers of the blocks holding address a, in block order. -/
def objectNumbersFor (num_blocks : List NumBlock) (a : Str) : List Str :=
  ((addressedBlocks num_blocks).filter (fun b => b.address_line == a)).map
    (fun b => b.object_number)

theorem build_diagnostics_duplicates_eq (num_blocks : List NumBlock) :
    (build_diagnostics num_blocks).duplicate_addresses
      = (num_blocks.foldl
          (fun acc block =>
            if block.address_line ≠ NOT_FOUND_IN_BLOCK then
              addDup acc block.address_line block.object_number
            else acc) []).filter (fun p => 1 < p.2.length) := rfl

theorem dup_fold_eq_groupPairs (num_blocks : List NumBlock) :
    num_blocks.foldl
        (fun acc block =>
          if block.address_line ≠ NOT_FOUND_IN_BLOCK then
            addDup acc block.address_line block.object_number
          else acc) []
      = groupPairs ((addressedBlocks num_blocks).map
          (fun b => (b.address_line, b.object_number))) := by
  rw [groupPairs, addressedBlocks]
  have hgen : ∀ (blocks : List NumBlock) (acc : List (Str × List Str)),
      blocks.foldl
          (fun acc block =>
            if block.address_line ≠ NOT_FOUND_IN_BLOCK then
              addDup acc block.address_line block.object_number
            else acc) acc
        = ((blocks.filter (fun b => b.address_line ≠ NOT_FOUND_IN_BLOCK)).map
            (fun b => (b.address_line, b.object_number))).foldl
            (fun acc p => addDup acc p.1 p.2) acc := by
    intro blocks
    induction blocks with
    | nil => intro acc; rfl
    | cons b bs ih =>
      intro acc
      by_cases hb : b.address_line ≠ NOT_FOUND_IN_BLOCK
      · rw [List.foldl_cons, if_pos hb,
          List.filter_cons_of_pos (by simpa using hb), List.map_cons,
          List.foldl_cons]
        exact ih _
      · rw [List.foldl_cons, if_neg hb,
          List.filter_cons_of_neg (by simpa using hb)]
        exact ih acc
  exact hgen num_blocks []

/-- C7: duplicate_addresses maps each non-sentinel address held by two or
more blocks to those blocks' object numbers in block order, keyed in
first-seen address order; sentinel addresses and addresses held by exactly
one block are excluded. -/
theorem build_diagnostics_duplicate_addresses (num_blocks : List NumBlock) :
    (build_diagnostics num_blocks).duplicate_addresses
      = ((dedupFirst ((addressedBlocks num_blocks).map
            (fun b => b.address_line))).filter
          (fun a => 1 < (objectNumbersFor num_blocks a).length)).map
        (fun a => (a, objectNumbersFor num_blocks a)) := by
  have hvalues : ∀ a : Str,
      valuesFor ((addressedBlocks num_blocks).map
          (fun b => (b.address_line, b.object_number))) a
        = objectNumbersFor num_blocks a := by
    intro a
    rw [valuesFor, objectNumbersFor, List.filter_map, List.map_map]
    rfl
  have hkeys : List.map Prod.fst
      ((addressedBlocks num_blocks).map
        (fun b => (b.address_line, b.object_number)))
      = (addressedBlocks num_blocks).map (fun b => b.address_line) := by
    rw [List.map_map]
    rfl
  rw [build_diagnostics_duplicates_eq, dup_fold_eq_groupPairs,
    groupPairs_spec, List.filter_map, hkeys]
  have hfilter : List.filter
      ((fun p : Str × List Str => 1 < p.2.length)
        ∘ (fun k => (k, valuesFor ((addressedBlocks num_blocks).map
            (fun b => (b.address_line, b.object_number))) k)))
      ((addressedBlocks num_blocks).map (fun b => b.address_line) |> dedupFirst)
      = List.filter (fun a => 1 < (objectNumbersFor num_blocks a).length)
          ((addressedBlocks num_blocks).map (fun b => b.address_line)
            |> dedupFirst) := by
    apply List.filter_congr
    intro a _
    show decide (1 < (valuesFor ((addressedBlocks num_blocks).map
        (fun b => (b.address_line, b.object_number))) a).length)
      = decide (1 < (objectNumbersFor num_blocks a).length)
    rw [hvalues a]
  rw [hfilter]
  apply List.map_congr_left
  intro a _
  rw [hvalues a]

theorem mem_of_strIn {needle s : Str} (h : strIn needle s = true) {ch : Char}
    (hch : ch ∈ needle) : ch ∈ s := by
  induction s with
  | nil =>
    rw [strIn_nil_iff] at h
    subst h
    simp at hch
  | cons c t ih =>
    rw [strIn_cons, Bool.or_eq_true] at h
    rcases h with h | h
    · obtain ⟨u, hu⟩ := isPrefixOf_iff_append.mp h
      rw [← hu]
      exact List.mem_append_left u hch
    · exact List.mem_cons_of_mem c (ih h)

theorem strIn_eq_false_of_missing_char {needle s : Str} {ch : Char}
    (hch : ch ∈ needle) (hs : ch ∉ s) : strIn needle s = false := by
  by_contra hb
  rw [Bool.not_eq_false] at hb
  exact hs (mem_of_strIn hb hch)

theorem pySplit_eq_single (sep : Str) {s : Str} (h : strIn sep s = false) :
    pySplit sep s = [s] := by
  induction s with
  | nil =>
    rw [pySplit_nil]
  | cons c t ih =>
    rw [strIn_cons, Bool.or_eq_false_iff] at h
    rw [pySplit_cons, if_neg (fun hcontra => by rw [h.1] at hcontra; cases hcontra.2),
      ih h.2]
    rfl

theorem pySplit_append_sep (sep : Str) (hsep : sep ≠ []) :
    ∀ (c rest : Str),
      (∀ i, i < c.length → sep.isPrefixOf ((c ++ sep ++ rest).drop i) = false) →
      pySplit sep (c ++ sep ++ rest) = c :: pySplit sep rest := by
  intro c
  induction c with
  | nil =>
    intro rest _
    match sep, hsep with
    | s0 :: stail, _ =>
      rw [List.nil_append, List.cons_append, pySplit_cons,
        if_pos ⟨List.cons_ne_nil s0 stail, isPrefixOf_iff_append.mpr ⟨rest, by rw [List.cons_append]⟩⟩]
      congr 1
      rw [List.length_cons, Nat.add_sub_cancel, List.drop_left]
  | cons x c' ih =>
    intro rest hfree
    have hx : ((x :: c') ++ sep ++ rest) = x :: (c' ++ sep ++ rest) := by
      simp
    rw [hx, pySplit_cons,
      if_neg (fun hcontra => by
        have h0 := hfree 0 (by simp)
        rw [List.drop_zero, hx] at h0
        rw [h0] at hcontra
        cases hcontra.2)]
    have hih := ih rest (fun i hi => by
      have := hfree (i + 1) (by simpa using Nat.succ_lt_succ hi)
      rw [hx] at this
      simpa using this)
    rw [hih]
    rfl

theorem pySplit_joinSep_uniqueChar (sep : Str) (ch : Char) (j : Nat)
    (hj : sep[j]? = some ch)
    (huniq : ∀ p, sep[p]? = some ch → p = j) :
    ∀ (chunks : List Str), chunks ≠ [] → (∀ c ∈ chunks, ch ∉ c) →
      pySplit sep (joinSep sep chunks) = chunks := by
  have hsep : sep ≠ [] := by
    intro hcontra
    subst hcontra
    simp at hj
  have hjlt : j < sep.length := by
    obtain ⟨h, _⟩ := List.getElem?_eq_some.mp hj
    exact h
  have hchsep : ch ∈ sep := by
    obtain ⟨h, hget⟩ := List.getElem?_eq_some.mp hj
    rw [← hget]
    exact List.getElem_mem h
  intro chunks
  induction chunks with
  | nil => intro hne; exact absurd rfl hne
  | cons ck cs ih =>
    intro _ hclean
    match cs with
    | [] =>
      show pySplit sep ck = [ck]
      exact pySplit_eq_single sep
        (strIn_eq_false_of_missing_char hchsep
          (hclean ck (List.mem_cons_self ck [])))
    | c2 :: cs' =>
      rw [joinSep_cons_cons]
      have hchc : ch ∉ ck := hclean ck (List.mem_cons_self ck _)
      have hfree : ∀ i, i < ck.length →
          sep.isPrefixOf ((ck ++ sep ++ joinSep sep (c2 :: cs')).drop i)
            = false := by
        intro i hi
        by_contra hb
        rw [Bool.not_eq_false] at hb
        obtain ⟨u, hu⟩ := isPrefixOf_iff_append.mp hb
        have hfull : (ck ++ sep ++ joinSep sep (c2 :: cs'))[i + j]? = some ch := by
          have hdrop := List.getElem?_drop (ck ++ sep ++ joinSep sep (c2 :: cs')) i j
          rw [← hu] at hdrop
          rw [← hdrop, List.getElem?_append]
          rw [if_pos hjlt]
          exact hj
        by_cases hcase : i + j < ck.length
        · have : ck[i + j]? = some ch := by
            rw [List.append_assoc] at hfull
            rw [List.getElem?_append, if_pos hcase] at hfull
            exact hfull
          obtain ⟨hlt, hget⟩ := List.getElem?_eq_some.mp this
          exact hchc (by rw [← hget]; exact List.getElem_mem hlt)
        · have hle : ck.length ≤ i + j := Nat.le_of_not_lt hcase
          have : sep[i + j - ck.length]? = some ch := by
            rw [List.append_assoc] at hfull
            rw [List.getElem?_append, if_neg hcase] at hfull
            rw [List.getElem?_append, if_pos (by omega)] at hfull
            exact hfull
          have heq := huniq (i + j - ck.length) this
          omega
      rw [pySplit_append_sep sep hsep ck (joinSep sep (c2 :: cs')) hfree]
      congr 1
      exact ih (by simp) (fun x hx => hclean x (List.mem_cons_of_mem ck hx))

/-- Read back the cells of one rendered table line: strip the leading
vertical-bar-space and the trailing space-vertical-bar, then split on the
space-bar-space column separator. -/
def readCellLine (line : Str) : List Str :=
  pySplit " | ".data ((line.drop 2).take ((line.drop 2).length - 2))

theorem joinSep_not_mem_char {sep : Str} {ch : Char} (hsep : ch ∉ sep) :
    ∀ (cs : List Str), (∀ ck ∈ cs, ch ∉ ck) → ch ∉ joinSep sep cs := by
  intro cs
  induction cs with
  | nil =>
    intro _
    simp [joinSep]
  | cons ck rest ih =>
    intro h
    match rest with
    | [] => exact h ck (List.mem_cons_self ck [])
    | c2 :: cs' =>
      rw [joinSep_cons_cons]
      intro hmem
      rcases List.mem_append.mp hmem with hmem | hmem
      · rcases List.mem_append.mp hmem with hmem | hmem
        · exact h ck (List.mem_cons_self ck _) hmem
        · exact hsep hmem
      · exact ih (fun x hx => h x (List.mem_cons_of_mem ck hx)) hmem

theorem mdLine_not_mem_char {cells : List Str} {ch : Char}
    (hch1 : ch ∉ ("| ".data : Str)) (hch2 : ch ∉ (" | ".data : Str))
    (hch3 : ch ∉ (" |".data : Str))
    (hcells : ∀ ck ∈ cells, ch ∉ ck) : ch ∉ mdLine cells := by
  rw [mdLine]
  intro hmem
  rcases List.mem_append.mp hmem with hmem | hmem
  · rcases List.mem_append.mp hmem with hmem | hmem
    · exact hch1 hmem
    · exact joinSep_not_mem_char hch2 cells hcells hmem
  · exact hch3 hmem

theorem readCellLine_mdLine (cells : List Str) (hne : cells ≠ [])
    (hclean : ∀ ck ∈ cells, '|' ∉ ck) :
    readCellLine (mdLine cells) = cells := by
  rw [readCellLine, mdLine]
  have h1 : (("| ".data ++ joinSep " | ".data cells ++ " |".data).drop 2 : Str)
      = joinSep " | ".data cells ++ " |".data := by
    rw [List.append_assoc]
    exact List.drop_left' rfl
  rw [h1]
  have h2 : ((joinSep " | ".data cells ++ " |".data).take
        ((joinSep " | ".data cells ++ " |".data).length - 2) : Str)
      = joinSep " | ".data cells := by
    apply List.take_left'
    rw [List.length_append]
    have hl : ((" |".data : Str)).length = 2 := rfl
    rw [hl]
    omega
  rw [h2]
  exact pySplit_joinSep_uniqueChar " | ".data '|' 1 rfl
    (fun p hp => by
      match p with
      | 0 => simp at hp
      | 1 => rfl
      | 2 => simp at hp
      | p + 3 => simp at hp)
    cells hne hclean

set_option maxRecDepth 10000 in
/-- Counterexample for C8 as stated: the first header cell of the rendered
table is the Dutch "Gevraagd Address", not "Requested Address" (and the
second is "Objectnummer", not "Object Number"); moreover a row whose cell
contains the literal column separator does not survive the render-and-read
round trip. -/
theorem rows_to_markdown_header_cex :
    readCellLine ((pySplit "\n".data (rows_to_markdown [])).headI)
        ≠ ["Requested Address".data, "Object Number".data,
           "Address in file".data, "UnitScale".data, "Storage Type".data,
           "Minimum Input Limit".data, "Maximum Input Limit".data,
           "Timing of max/min range check".data] ∧
    readCellLine ((pySplit "\n".data (rows_to_markdown [])).headI)
        = ["Gevraagd Address".data, "Objectnummer".data,
           "Address in file".data, "UnitScale".data, "Storage Type".data,
           "Minimum Input Limit".data, "Maximum Input Limit".data,
           "Timing of max/min range check".data] ∧
    readCellLine (mdLine (rowCells
        ⟨"a | b".data, "x".data, "x".data, "x".data, "x".data, "x".data,
          "x".data, "x".data⟩))
      ≠ rowCells ⟨"a | b".data, "x".data, "x".data, "x".data, "x".data,
          "x".data, "x".data, "x".data⟩ := by
  refine ⟨by decide, by decide, by decide⟩

set_option maxRecDepth 10000 in
/-- C8 (amended): rows_to_markdown renders a fixed 8-column table whose
header cells are Gevraagd Address | Objectnummer | Address in file |
UnitScale | Storage Type | Minimum Input Limit | Maximum Input Limit |
Timing of max/min range check, with one body line per Lookup Row in request
order after the header and separator lines; and for every row none of whose
cells contains a vertical bar or a newline, reading a rendered line's cells
back reproduces the row's attributes in order. -/
theorem rows_to_markdown_table (rows : List LookupRow)
    (hclean : ∀ row ∈ rows, ∀ ck ∈ rowCells row, '|' ∉ ck ∧ '\n' ∉ ck) :
    headers.length = 8 ∧
    pySplit "\n".data (rows_to_markdown rows)
      = mdLine headers
        :: mdLine (List.replicate headers.length "---".data)
        :: rows.map (fun row => mdLine (rowCells row)) ∧
    readCellLine (mdLine headers)
      = ["Gevraagd Address".data, "Objectnummer".data,
         "Address in file".data, "UnitScale".data, "Storage Type".data,
         "Minimum Input Limit".data, "Maximum Input Limit".data,
         "Timing of max/min range check".data] ∧
    ∀ row ∈ rows, readCellLine (mdLine (rowCells row)) = rowCells row := by
  refine ⟨rfl, ?_, ?_, ?_⟩
  · rw [rows_to_markdown]
    apply pySplit_joinSep_uniqueChar "\n".data '\n' 0 rfl
      (fun p hp => by
        match p with
        | 0 => rfl
        | p + 1 => simp at hp)
    · simp
    · intro line hline
      rcases List.mem_cons.mp hline with rfl | hline
      · decide
      · rcases List.mem_cons.mp hline with rfl | hline
        · decide
        · rw [List.mem_map] at hline
          obtain ⟨row, hrow, rfl⟩ := hline
          exact mdLine_not_mem_char (by decide) (by decide) (by decide)
            (fun ck hck => (hclean row hrow ck hck).2)
  · decide
  · intro row hrow
    exact readCellLine_mdLine (rowCells row) (by simp [rowCells])
      (fun ck hck => (hclean row hrow ck hck).1)

set_option maxRecDepth 10000 in
/-- Witness for C8 (amended) at a one-row table with separator-free
cells. -/
theorem rows_to_markdown_table_witness :
    readCellLine (mdLine (rowCells
        ⟨"100".data, "NUM0001".data, "Address 100".data, "U".data, "S".data,
          "1".data, "9".data, "C".data⟩))
      = rowCells ⟨"100".data, "NUM0001".data, "Address 100".data, "U".data,
          "S".data, "1".data, "9".data, "C".data⟩ := by
  have h := rows_to_markdown_table
    [⟨"100".data, "NUM0001".data, "Address 100".data, "U".data, "S".data,
      "1".data, "9".data, "C".data⟩] (by decide)
  exact h.2.2.2
    ⟨"100".data, "NUM0001".data, "Address 100".data, "U".data, "S".data,
      "1".data, "9".data, "C".data⟩ (List.mem_singleton.mpr rfl)
